import Mathlib

/-! # RDxfExporterFactory: file-name / name-filter matching of the DXF exporter

A shallow embedding of `src/io/dxf/RDxfExporterFactory.cpp`.

The two member functions of the factory are pure string functions.  They are
written against three Qt library operations, `QFileInfo::suffix`,
`QString::toLower` and `QString::contains`, which are embedded here from the
Qt documentation:

* a `QString` is a sequence of UTF-16 code units, a `QChar` is one code unit;
* `QFileInfo::suffix` is "all characters in the file after (but not
  including) the last `.`", found by a scan from the end of the path that
  stops at the first `.` or `/` (directory separators are `/`, as on every
  platform where the native separator is `/`);
* `QString::toLower` lower-cases code unit by code unit; the embedding
  carries the Basic Latin and Latin-1 letters, the two letter-like symbols
  whose lower case lies in those blocks (KELVIN SIGN, ANGSTROM SIGN) and the
  one unconditional special casing (U+0130, which becomes two code units);
  code units of the other blocks are left as they are (their lower case is
  never a Basic Latin code unit);
* `QString::contains(str)` is `indexOf(str) != -1`, a case-sensitive search.
-/

/-- A UTF-16 code unit. -/
abbrev QChar := Nat

/-- A Qt string: a sequence of UTF-16 code units. -/
abbrev QString := List QChar

/-- The UTF-16 code units of one Unicode scalar value. -/
def QChar.encode (c : Char) : List QChar :=
  if c.toNat < 0x10000 then [c.toNat]
  else [0xD800 + (c.toNat - 0x10000) / 0x400, 0xDC00 + (c.toNat - 0x10000) % 0x400]

/-- The `QString` of a string literal of the source. -/
def qstr (s : String) : QString :=
  s.toList.foldr (fun c acc => QChar.encode c ++ acc) []

/-- The code unit of `.`. -/
def QChar.dot : QChar := 0x2E

/-- The code unit of `/`, the directory separator. -/
def QChar.slash : QChar := 0x2F

/-- Lower case of one code unit (`QChar::toLower`). -/
def QChar.toLower (c : QChar) : QChar :=
  if 0x41 ≤ c ∧ c ≤ 0x5A then c + 0x20
  else if 0xC0 ≤ c ∧ c ≤ 0xDE ∧ c ≠ 0xD7 then c + 0x20
  else if c = 0x212A then 0x6B
  else if c = 0x212B then 0xE5
  else c

/-- The code units a code unit becomes in `QString::toLower`: U+0130 is the
one code unit whose lower case is longer than one unit. -/
def QChar.lowerUnits (c : QChar) : List QChar :=
  if c = 0x130 then [0x69, 0x307] else [QChar.toLower c]

/-- `QString::toLower`. -/
def QString.toLower : QString → QString
  | [] => []
  | c :: cs => QChar.lowerUnits c ++ QString.toLower cs

/-- Search of `QString::indexOf(str)`: the first position at or after `i`
(the position of the head of the text still to be searched) where `str`
starts, `-1` when there is none. -/
def QString.indexOfAux (str : QString) : QString → Nat → Int
  | [], i => if str.isEmpty then (i : Int) else -1
  | c :: cs, i =>
    if str.isPrefixOf (c :: cs) then (i : Int) else QString.indexOfAux str cs (i + 1)

/-- `QString::indexOf(str)`, from position 0, case sensitive. -/
def QString.indexOf (s str : QString) : Int :=
  QString.indexOfAux str s 0

/-- `QString::contains(str)`, case sensitive. -/
def QString.contains (s str : QString) : Bool :=
  QString.indexOf s str != -1

/-- A `QFileInfo` built from a file name: it keeps the path. -/
structure QFileInfo where
  filePath : QString
  deriving DecidableEq, Repr

/-- The scan of `QFileInfo::suffix` from the end of the path: `rest` is the
part of the path not yet looked at, last code unit first, and `acc` the code
units already passed.  The scan ends at the first `.` (the units passed are
the suffix) or at the first `/` or the start of the path (no suffix). -/
def QFileInfo.suffixScan : List QChar → QString → QString
  | [], _ => []
  | c :: rest, acc =>
    if c = QChar.dot then acc
    else if c = QChar.slash then []
    else QFileInfo.suffixScan rest (c :: acc)

/-- `QFileInfo::suffix`. -/
def QFileInfo.suffix (fi : QFileInfo) : QString :=
  QFileInfo.suffixScan fi.filePath.reverse []

namespace RDxfExporterFactory

/-- `RDxfExporterFactory::getFilterStrings`. -/
def getFilterStrings : List QString :=
  let ret : List QString := []
  let ret := ret ++ [qstr "DXF R12 (dxflib) (*.dxf)"]
  let ret := ret ++ [qstr "DXF 2000 (dxflib) (*.dxf)"]
  ret

/-- `RDxfExporterFactory::canExport`. -/
def canExport (fileName nameFilter : QString) : Bool :=
  let fi : QFileInfo := ⟨fileName⟩
  -- supported file suffix:
  if fi.suffix.toLower == qstr "dxf" then
    true
  else
    -- supported name filter if no extension is given:
    let nfl := nameFilter.toLower
    if nfl.contains (qstr ".dxf") then
      true
    else
      false

end RDxfExporterFactory

/-! ## The spec's words

Definitions that follow the wording of the specification, to be compared with
the embedding of the code above. -/

namespace Spec

/-- Lower case of the ASCII letters only. -/
def lowerChar (c : QChar) : QChar :=
  if 0x41 ≤ c ∧ c ≤ 0x5A then c + 0x20 else c

/-- Upper case of the ASCII letters only. -/
def upperChar (c : QChar) : QChar :=
  if 0x61 ≤ c ∧ c ≤ 0x7A then c - 0x20 else c

/-- A text with its ASCII letters lower-cased. -/
def lower (s : QString) : QString := s.map lowerChar

/-- A text with its ASCII letters upper-cased. -/
def upper (s : QString) : QString := s.map upperChar

/-- The text after the last occurrence of `sep`; the whole text when `sep`
does not occur. -/
def afterLast (sep : QChar) : QString → QString
  | [] => []
  | c :: cs => if sep ∈ cs then afterLast sep cs else if c = sep then cs else c :: cs

/-- The final path component of a file name: the text after its last `/`. -/
def finalComponent (fileName : QString) : QString :=
  afterLast QChar.slash fileName

/-- The suffix of a file name: the text after the last `.` of its final path
component, empty when that component has no `.`. -/
def suffix (fileName : QString) : QString :=
  if QChar.dot ∈ finalComponent fileName then afterLast QChar.dot (finalComponent fileName)
  else []

end Spec

/-- A code unit that lower-casing neither produces from a unit outside the
ASCII letters nor changes: an ASCII unit that is not a capital letter and is
neither `i` nor `k`. -/
def plainUnit (u : QChar) : Prop :=
  u < 0x41 ∨ (0x5A < u ∧ u < 0x80 ∧ u ≠ 0x69 ∧ u ≠ 0x6B)

instance plainUnit.decidable (u : QChar) : Decidable (plainUnit u) := by
  unfold plainUnit; infer_instance

open RDxfExporterFactory

/-- The two readings of the suffix on sample file names. -/
theorem suffix_samples :
    Spec.suffix (qstr "/a.b/c.tar.GZ") = qstr "GZ" ∧
    QFileInfo.suffix ⟨qstr "/a.b/c.tar.GZ"⟩ = qstr "GZ" ∧
    Spec.finalComponent (qstr "/a.b/c") = qstr "c" ∧
    Spec.suffix (qstr "/a.b/c") = qstr "" ∧
    QFileInfo.suffix ⟨qstr "/a.b/c"⟩ = qstr "" ∧
    Spec.suffix (qstr "/a.b/c.") = qstr "" ∧
    QFileInfo.suffix ⟨qstr "/a.b/c."⟩ = qstr "" ∧
    Spec.suffix (qstr ".dxf") = qstr "dxf" ∧
    QFileInfo.suffix ⟨qstr ".dxf"⟩ = qstr "dxf" := by
  decide

/-- Lower-casing on sample texts: `QString::toLower` and the lower case of
the ASCII letters differ outside ASCII only. -/
theorem toLower_samples :
    QString.toLower (qstr "DXF R12 (*.Dxf)") = qstr "dxf r12 (*.dxf)" ∧
    Spec.lower (qstr "DXF R12 (*.Dxf)") = qstr "dxf r12 (*.dxf)" ∧
    QString.toLower [0x212A, 0xC4, 0x130] = [0x6B, 0xE4, 0x69, 0x307] ∧
    Spec.lower [0x212A, 0xC4, 0x130] = [0x212A, 0xC4, 0x130] := by
  decide

/-! ## Facts about the Qt operations -/

theorem indexOfAux_ne_iff (str s : QString) (i : Nat) :
    QString.indexOfAux str s i ≠ -1 ↔ str <:+: s := by
  induction s generalizing i with
  | nil =>
    cases str with
    | nil => simp [QString.indexOfAux]
    | cons a t => simp [QString.indexOfAux]
  | cons c cs ih =>
    rw [QString.indexOfAux, List.infix_cons_iff]
    by_cases h : str.isPrefixOf (c :: cs) = true
    · rw [if_pos h]
      have h2 := List.isPrefixOf_iff_prefix.mp h
      constructor
      · intro _; exact Or.inl h2
      · intro _; omega
    · rw [if_neg h, ih]
      have h2 : ¬ str <+: c :: cs := fun hp => h (List.isPrefixOf_iff_prefix.mpr hp)
      constructor
      · intro h3; exact Or.inr h3
      · intro h3; exact h3.resolve_left h2

theorem contains_iff (s str : QString) : QString.contains s str = true ↔ str <:+: s := by
  unfold QString.contains QString.indexOf
  rw [bne_iff_ne]
  exact indexOfAux_ne_iff str s 0

theorem lowerUnits_ne_nil (c : QChar) : QChar.lowerUnits c ≠ [] := by
  unfold QChar.lowerUnits; split <;> simp

theorem toLower_eq_nil_iff (s : QString) : QString.toLower s = [] ↔ s = [] := by
  cases s with
  | nil => simp [QString.toLower]
  | cons c cs => simp [QString.toLower, lowerUnits_ne_nil]

theorem toLower_eq_plain_iff {u : QChar} (hu : plainUnit u) (c : QChar) (hc : c ≠ 0x130) :
    QChar.toLower c = u ↔ Spec.lowerChar c = u := by
  unfold plainUnit at hu
  unfold QChar.toLower Spec.lowerChar
  unfold QChar at *
  split_ifs <;> constructor <;> intro h <;> omega

theorem lowerChar_special_ne {u : QChar} (hu : plainUnit u) :
    Spec.lowerChar 0x130 ≠ u ∧ 0x69 ≠ u ∧ 0x307 ≠ u := by
  unfold plainUnit at hu
  have h0 : Spec.lowerChar 0x130 = 0x130 := by decide
  rw [h0]
  unfold QChar at *
  refine ⟨?_, ?_, ?_⟩ <;> omega

theorem lowerUnits_append_eq_cons {u : QChar} (hu : plainUnit u) (c : QChar) (l q : QString) :
    QChar.lowerUnits c ++ l = u :: q ↔ Spec.lowerChar c = u ∧ l = q := by
  by_cases hc : c = 0x130
  · subst hc
    have h := lowerChar_special_ne hu
    simp [QChar.lowerUnits, h.1, h.2.1]
  · simp [QChar.lowerUnits, hc, toLower_eq_plain_iff hu c hc]

theorem cons_isPrefix_lowerUnits_append {u : QChar} (hu : plainUnit u) (c : QChar)
    (l q : QString) :
    u :: q <+: QChar.lowerUnits c ++ l ↔ Spec.lowerChar c = u ∧ q <+: l := by
  by_cases hc : c = 0x130
  · subst hc
    have h := lowerChar_special_ne hu
    have h1 : ¬ u = 0x69 := fun e => h.2.1 e.symm
    simp [QChar.lowerUnits, List.cons_prefix_cons, h.1, h1]
  · have h := toLower_eq_plain_iff hu c hc
    simp only [QChar.lowerUnits, hc, if_false, List.singleton_append, List.cons_prefix_cons]
    constructor
    · rintro ⟨e, hq⟩; exact ⟨h.mp e.symm, hq⟩
    · rintro ⟨e, hq⟩; exact ⟨(h.mpr e).symm, hq⟩

/-- Lower-casing a text gives a given text of plain units exactly when
lower-casing its ASCII letters does. -/
theorem toLower_eq_iff_lower_eq (p : QString) (hp : ∀ u ∈ p, plainUnit u) (s : QString) :
    QString.toLower s = p ↔ Spec.lower s = p := by
  induction p generalizing s with
  | nil => rw [toLower_eq_nil_iff]; simp [Spec.lower]
  | cons u q ih =>
    cases s with
    | nil => simp [QString.toLower, Spec.lower]
    | cons c cs =>
      have hu : plainUnit u := hp u (List.mem_cons_self u q)
      have hq : ∀ v ∈ q, plainUnit v := fun v hv => hp v (List.mem_cons_of_mem u hv)
      rw [QString.toLower, lowerUnits_append_eq_cons hu, ih hq]
      simp [Spec.lower]

/-- A text of plain units starts the lower-cased text exactly when it starts
the text with its ASCII letters lower-cased. -/
theorem isPrefix_toLower_iff (p : QString) (hp : ∀ u ∈ p, plainUnit u) (s : QString) :
    p <+: QString.toLower s ↔ p <+: Spec.lower s := by
  induction p generalizing s with
  | nil => simp
  | cons u q ih =>
    cases s with
    | nil => simp [QString.toLower, Spec.lower]
    | cons c cs =>
      have hu : plainUnit u := hp u (List.mem_cons_self u q)
      have hq : ∀ v ∈ q, plainUnit v := fun v hv => hp v (List.mem_cons_of_mem u hv)
      rw [QString.toLower, cons_isPrefix_lowerUnits_append hu, ih hq]
      simp only [Spec.lower, List.map_cons, List.cons_prefix_cons]
      constructor
      · rintro ⟨e, h⟩; exact ⟨e.symm, h⟩
      · rintro ⟨e, h⟩; exact ⟨e.symm, h⟩

theorem isInfix_lowerUnits_append {u : QChar} (hu : plainUnit u) (q : QString) (c : QChar)
    (l : QString) :
    u :: q <:+: QChar.lowerUnits c ++ l ↔
      (u :: q <+: QChar.lowerUnits c ++ l ∨ u :: q <:+: l) := by
  by_cases hc : c = 0x130
  · subst hc
    have h := lowerChar_special_ne hu
    have h1 : ¬ u = 0x307 := fun e => h.2.2 e.symm
    simp [QChar.lowerUnits, List.infix_cons_iff, List.cons_prefix_cons, h1]
  · simp [QChar.lowerUnits, hc, List.infix_cons_iff]

/-- A non-empty text of plain units occurs in the lower-cased text exactly
when it occurs in the text with its ASCII letters lower-cased. -/
theorem isInfix_toLower_iff (p : QString) (hp : ∀ u ∈ p, plainUnit u) (hne : p ≠ [])
    (s : QString) :
    p <:+: QString.toLower s ↔ p <:+: Spec.lower s := by
  cases p with
  | nil => exact absurd rfl hne
  | cons u q =>
    have hu : plainUnit u := hp u (List.mem_cons_self u q)
    induction s with
    | nil => simp [QString.toLower, Spec.lower]
    | cons c cs ih =>
      have h := isPrefix_toLower_iff (u :: q) hp (c :: cs)
      rw [QString.toLower] at h
      have h2 : Spec.lower (c :: cs) = Spec.lowerChar c :: Spec.lower cs := rfl
      rw [QString.toLower, isInfix_lowerUnits_append hu, h, h2, List.infix_cons_iff]
      exact or_congr Iff.rfl ih

/-! ## Facts about the suffix -/

theorem suffixScan_reverse_append (e : QString) (he : ∀ c ∈ e, c ≠ QChar.dot ∧ c ≠ QChar.slash)
    (r : List QChar) (acc : QString) :
    QFileInfo.suffixScan (e.reverse ++ r) acc = QFileInfo.suffixScan r (e ++ acc) := by
  induction e generalizing r with
  | nil => simp
  | cons a e ih =>
    have ha := he a (List.mem_cons_self a e)
    have he2 : ∀ c ∈ e, c ≠ QChar.dot ∧ c ≠ QChar.slash :=
      fun c hc => he c (List.mem_cons_of_mem a hc)
    rw [List.reverse_cons, List.append_assoc, ih he2, List.singleton_append,
      QFileInfo.suffixScan, if_neg ha.1, if_neg ha.2]
    simp

/-- The suffix of a path that ends in `.` followed by a text with no `.` and
no `/` is that text. -/
theorem suffix_append_dot (x e : QString) (he : ∀ c ∈ e, c ≠ QChar.dot ∧ c ≠ QChar.slash) :
    QFileInfo.suffix ⟨x ++ QChar.dot :: e⟩ = e := by
  unfold QFileInfo.suffix
  simp only [List.reverse_append, List.reverse_cons, List.append_assoc, List.singleton_append]
  rw [suffixScan_reverse_append e he, QFileInfo.suffixScan, if_pos rfl]
  simp

/-- A path that ends in `/` followed by a text with no `.` and no `/` has no
suffix. -/
theorem suffix_append_slash (x e : QString)
    (he : ∀ c ∈ e, c ≠ QChar.dot ∧ c ≠ QChar.slash) :
    QFileInfo.suffix ⟨x ++ QChar.slash :: e⟩ = [] := by
  unfold QFileInfo.suffix
  simp only [List.reverse_append, List.reverse_cons, List.append_assoc, List.singleton_append]
  rw [suffixScan_reverse_append e he, QFileInfo.suffixScan, if_neg (by decide), if_pos rfl]

theorem afterLast_of_not_mem (sep : QChar) (e : QString) (h : sep ∉ e) :
    Spec.afterLast sep e = e := by
  cases e with
  | nil => rfl
  | cons c cs =>
    have h1 : sep ∉ cs := fun hm => h (List.mem_cons_of_mem c hm)
    have h2 : c ≠ sep := fun hc => h (hc ▸ List.mem_cons_self c cs)
    rw [Spec.afterLast, if_neg h1, if_neg h2]

theorem afterLast_append (sep : QChar) (t e : QString) (h : sep ∉ e) :
    Spec.afterLast sep (t ++ e) = Spec.afterLast sep t ++ e := by
  induction t with
  | nil => simp [Spec.afterLast, afterLast_of_not_mem sep e h]
  | cons a t ih =>
    simp only [List.cons_append, Spec.afterLast, List.mem_append, h, or_false]
    by_cases h1 : sep ∈ t
    · simp [h1, ih]
    · by_cases h2 : a = sep <;> simp [h1, h2, h]

theorem afterLast_append_sep (sep : QChar) (x e : QString) (h : sep ∉ e) :
    Spec.afterLast sep (x ++ sep :: e) = e := by
  induction x with
  | nil => simp [Spec.afterLast, h]
  | cons a x ih => simp [Spec.afterLast, ih]

theorem suffixScan_eq_spec (t acc : QString)
    (hacc : ∀ c ∈ acc, c ≠ QChar.dot ∧ c ≠ QChar.slash) :
    QFileInfo.suffixScan t.reverse acc = Spec.suffix (t ++ acc) := by
  have hdot : ∀ a : QString, (∀ c ∈ a, c ≠ QChar.dot ∧ c ≠ QChar.slash) → QChar.dot ∉ a :=
    fun a ha hm => (ha _ hm).1 rfl
  have hslash : ∀ a : QString, (∀ c ∈ a, c ≠ QChar.dot ∧ c ≠ QChar.slash) → QChar.slash ∉ a :=
    fun a ha hm => (ha _ hm).2 rfl
  induction t using List.reverseRecOn generalizing acc with
  | nil =>
    simp [QFileInfo.suffixScan, Spec.suffix, Spec.finalComponent,
      afterLast_of_not_mem _ acc (hslash acc hacc), hdot acc hacc]
  | append_singleton t c ih =>
    rw [List.reverse_append, List.reverse_singleton, List.singleton_append,
      QFileInfo.suffixScan, List.append_assoc, List.singleton_append]
    by_cases h1 : c = QChar.dot
    · subst h1
      have hs : QChar.slash ∉ QChar.dot :: acc := by
        simp [hslash acc hacc]; decide
      rw [if_pos rfl, Spec.suffix, Spec.finalComponent, afterLast_append _ _ _ hs,
        afterLast_append_sep _ _ _ (hdot acc hacc)]
      simp
    · by_cases h2 : c = QChar.slash
      · subst h2
        rw [if_neg h1, if_pos rfl, Spec.suffix, Spec.finalComponent,
          afterLast_append_sep _ _ _ (hslash acc hacc), if_neg (hdot acc hacc)]
      · rw [if_neg h1, if_neg h2]
        apply ih
        intro d hd
        rcases List.mem_cons.mp hd with rfl | hd
        · exact ⟨h1, h2⟩
        · exact hacc d hd

/-- The scan of `QFileInfo::suffix` computes the suffix of the spec: the text
after the last `.` of the final path component. -/
theorem suffix_eq_spec (fileName : QString) :
    QFileInfo.suffix ⟨fileName⟩ = Spec.suffix fileName := by
  have h := suffixScan_eq_spec fileName [] (by simp)
  simpa [QFileInfo.suffix] using h

theorem suffixScan_map (g : QChar → QChar)
    (hg : ∀ c, (g c = QChar.dot ↔ c = QChar.dot) ∧ (g c = QChar.slash ↔ c = QChar.slash))
    (r : List QChar) (acc : QString) :
    QFileInfo.suffixScan (r.map g) (acc.map g) = (QFileInfo.suffixScan r acc).map g := by
  induction r generalizing acc with
  | nil => rfl
  | cons c r ih =>
    simp only [List.map_cons, QFileInfo.suffixScan, (hg c).1, (hg c).2]
    by_cases h1 : c = QChar.dot
    · simp [h1]
    · by_cases h2 : c = QChar.slash
      · subst h2
        have h3 : ¬ QChar.slash = QChar.dot := by decide
        simp [h3]
      · simp only [h1, h2, if_false]
        exact ih (c :: acc)

theorem suffix_map (g : QChar → QChar)
    (hg : ∀ c, (g c = QChar.dot ↔ c = QChar.dot) ∧ (g c = QChar.slash ↔ c = QChar.slash))
    (fileName : QString) :
    QFileInfo.suffix ⟨fileName.map g⟩ = (QFileInfo.suffix ⟨fileName⟩).map g := by
  unfold QFileInfo.suffix
  have h := suffixScan_map g hg fileName.reverse []
  simpa [List.map_reverse] using h

/-! ## Facts about `canExport` -/

theorem dxf_plain : ∀ u ∈ qstr "dxf", plainUnit u := by decide

theorem dotDxf_plain : ∀ u ∈ qstr ".dxf", plainUnit u := by decide

theorem canExport_eq_true_iff (fileName nameFilter : QString) :
    canExport fileName nameFilter = true ↔
      (QString.toLower (QFileInfo.suffix ⟨fileName⟩) = qstr "dxf" ∨
        QString.contains (QString.toLower nameFilter) (qstr ".dxf") = true) := by
  unfold canExport
  by_cases h : QString.toLower (QFileInfo.suffix ⟨fileName⟩) = qstr "dxf"
  · simp [h]
  · simp [h]

theorem canExport_eq_true_iff_spec (fileName nameFilter : QString) :
    canExport fileName nameFilter = true ↔
      (Spec.lower (Spec.suffix fileName) = qstr "dxf" ∨
        qstr ".dxf" <:+: Spec.lower nameFilter) := by
  rw [canExport_eq_true_iff, contains_iff, suffix_eq_spec,
    toLower_eq_iff_lower_eq _ dxf_plain,
    isInfix_toLower_iff _ dotDxf_plain (by decide)]

theorem lowerChar_fixes (c : QChar) :
    (Spec.lowerChar c = QChar.dot ↔ c = QChar.dot) ∧
      (Spec.lowerChar c = QChar.slash ↔ c = QChar.slash) := by
  unfold Spec.lowerChar QChar.dot QChar.slash
  unfold QChar at *
  split_ifs <;> refine ⟨⟨?_, ?_⟩, ⟨?_, ?_⟩⟩ <;> intro h <;> omega

theorem upperChar_fixes (c : QChar) :
    (Spec.upperChar c = QChar.dot ↔ c = QChar.dot) ∧
      (Spec.upperChar c = QChar.slash ↔ c = QChar.slash) := by
  unfold Spec.upperChar QChar.dot QChar.slash
  unfold QChar at *
  split_ifs <;> refine ⟨⟨?_, ?_⟩, ⟨?_, ?_⟩⟩ <;> intro h <;> omega

theorem lower_lower (s : QString) : Spec.lower (Spec.lower s) = Spec.lower s := by
  unfold Spec.lower
  rw [List.map_map]
  apply List.map_congr_left
  intro c _
  simp only [Function.comp]
  unfold Spec.lowerChar
  unfold QChar at *
  split_ifs <;> omega

theorem lower_upper (s : QString) : Spec.lower (Spec.upper s) = Spec.lower s := by
  unfold Spec.lower Spec.upper
  rw [List.map_map]
  apply List.map_congr_left
  intro c _
  simp only [Function.comp]
  unfold Spec.lowerChar Spec.upperChar
  unfold QChar at *
  split_ifs <;> omega

theorem canExport_lower (fileName nameFilter : QString) :
    canExport (Spec.lower fileName) (Spec.lower nameFilter) = canExport fileName nameFilter := by
  rw [Bool.eq_iff_iff, canExport_eq_true_iff_spec, canExport_eq_true_iff_spec,
    ← suffix_eq_spec, ← suffix_eq_spec]
  have h := suffix_map Spec.lowerChar lowerChar_fixes fileName
  unfold Spec.lower at *
  rw [h]
  have h2 := lower_lower
  unfold Spec.lower at h2
  rw [h2, h2]

theorem canExport_upper (fileName nameFilter : QString) :
    canExport (Spec.upper fileName) (Spec.upper nameFilter) = canExport fileName nameFilter := by
  rw [Bool.eq_iff_iff, canExport_eq_true_iff_spec, canExport_eq_true_iff_spec,
    ← suffix_eq_spec, ← suffix_eq_spec]
  have h := suffix_map Spec.upperChar upperChar_fixes fileName
  have h2 := lower_upper
  unfold Spec.lower Spec.upper at *
  rw [h, h2, h2]

theorem no_sep_of_lower_eq (e p : QString) (h : Spec.lower e = p)
    (hp : QChar.dot ∉ p ∧ QChar.slash ∉ p) :
    ∀ c ∈ e, c ≠ QChar.dot ∧ c ≠ QChar.slash := by
  intro c hc
  have hm : Spec.lowerChar c ∈ p := by
    rw [← h]; exact List.mem_map_of_mem Spec.lowerChar hc
  constructor
  · intro hd
    rw [(lowerChar_fixes c).1.mpr hd] at hm
    exact hp.1 hm
  · intro hd
    rw [(lowerChar_fixes c).2.mpr hd] at hm
    exact hp.2 hm

theorem canExport_eq_false_of_suffix (fileName nameFilter : QString)
    (hs : Spec.lower (QFileInfo.suffix ⟨fileName⟩) ≠ qstr "dxf")
    (hn : ¬ qstr ".dxf" <:+: Spec.lower nameFilter) :
    canExport fileName nameFilter = false := by
  rw [← Bool.not_eq_true, canExport_eq_true_iff_spec, ← suffix_eq_spec]
  rintro (h | h)
  · exact hs h
  · exact hn h

/-- On an empty file name and an empty name filter `canExport` is false. -/
theorem canExport_empty : canExport (qstr "") (qstr "") = false := by
  decide

/-! ## The claims -/

/-- C1: `canExport fileName nameFilter` is true exactly when the suffix of
`fileName` (the text after the last `.` of its final path component),
lower-cased, equals "dxf", or `nameFilter` lower-cased contains ".dxf"; in
every other case it is false.  This holds when "lower-cased" is read as the
lower case of the ASCII letters and when it is read as `QString::toLower`. -/
theorem C1_canExport_iff (fileName nameFilter : QString) :
    (canExport fileName nameFilter = true ↔
      (Spec.lower (Spec.suffix fileName) = qstr "dxf" ∨
        qstr ".dxf" <:+: Spec.lower nameFilter)) ∧
    (canExport fileName nameFilter = true ↔
      (QString.toLower (Spec.suffix fileName) = qstr "dxf" ∨
        qstr ".dxf" <:+: QString.toLower nameFilter)) ∧
    (canExport fileName nameFilter = false ↔
      ¬ (Spec.lower (Spec.suffix fileName) = qstr "dxf" ∨
        qstr ".dxf" <:+: Spec.lower nameFilter)) := by
  refine ⟨canExport_eq_true_iff_spec fileName nameFilter, ?_, ?_⟩
  · rw [canExport_eq_true_iff, contains_iff, suffix_eq_spec]
  · rw [← Bool.not_eq_true, canExport_eq_true_iff_spec]

/-- C2: every file name that ends with ".dxf" in any mix of upper and lower
case is accepted, whatever the name filter. -/
theorem C2_canExport_of_dxf_name (fileName nameFilter : QString)
    (h : qstr ".dxf" <:+ Spec.lower fileName) :
    canExport fileName nameFilter = true := by
  obtain ⟨t, ht⟩ := h
  have h1 : qstr ".dxf" = QChar.dot :: qstr "dxf" := by decide
  unfold Spec.lower at ht
  obtain ⟨l1, l2, hf, _, hl2⟩ := List.map_eq_append_iff.mp ht.symm
  rw [h1] at hl2
  obtain ⟨a, e, hl, ha, he⟩ := List.map_eq_cons_iff.mp hl2
  have ha2 : a = QChar.dot := (lowerChar_fixes a).1.mp ha
  subst ha2 hl hf
  rw [canExport_eq_true_iff_spec, ← suffix_eq_spec,
    suffix_append_dot l1 e (no_sep_of_lower_eq e _ he (by decide))]
  exact Or.inl he

/-- C2, at the bare name ".dxf" with an empty filter and at a name with
directories in front and a filter that names another format. -/
theorem C2_canExport_of_dxf_name_witness :
    (qstr ".dxf" <:+ Spec.lower (qstr ".dxf") ∧
      canExport (qstr ".dxf") (qstr "") = true) ∧
    (qstr ".dxf" <:+ Spec.lower (qstr "/home/user/Plan.DxF") ∧
      canExport (qstr "/home/user/Plan.DxF") (qstr "SVG (*.svg)") = true) :=
  ⟨⟨by decide, C2_canExport_of_dxf_name (qstr ".dxf") (qstr "") (by decide)⟩,
   ⟨by decide,
    C2_canExport_of_dxf_name (qstr "/home/user/Plan.DxF") (qstr "SVG (*.svg)") (by decide)⟩⟩

/-- C3, as stated, fails: the file name "drawing.svg" has the non-empty suffix
"svg", which is not "dxf" in any letter case, and with the name filter
"DXF R12 (dxflib) (*.dxf)" the result of `canExport` is not false. -/
theorem C3_canExport_other_extension_counterexample :
    Spec.suffix (qstr "drawing.svg") = qstr "svg" ∧
    qstr "svg" ≠ [] ∧
    Spec.lower (qstr "svg") ≠ qstr "dxf" ∧
    ¬ (canExport (qstr "drawing.svg") (qstr "DXF R12 (dxflib) (*.dxf)") = false) := by
  decide

/-- C3, amended: for a file name whose suffix is non-empty and is not "dxf" in
any letter case, the name filter alone decides: `canExport` is false for every
name filter that does not contain ".dxf" in any letter case, and true for
every name filter that does. -/
theorem C3_canExport_other_extension (fileName nameFilter : QString)
    (hs : Spec.suffix fileName ≠ [])
    (hd : Spec.lower (Spec.suffix fileName) ≠ qstr "dxf") :
    (¬ qstr ".dxf" <:+: Spec.lower nameFilter → canExport fileName nameFilter = false) ∧
    (qstr ".dxf" <:+: Spec.lower nameFilter → canExport fileName nameFilter = true) := by
  have _ := hs
  constructor
  · intro hn
    rw [← Bool.not_eq_true, canExport_eq_true_iff_spec]
    rintro (h | h)
    · exact hd h
    · exact hn h
  · intro hn
    rw [canExport_eq_true_iff_spec]
    exact Or.inr hn

/-- C3, amended, at "drawing.svg": false with the filter "SVG (*.svg)" and
with an empty filter, true with the filter "DXF (*.DXF)". -/
theorem C3_canExport_other_extension_witness :
    Spec.suffix (qstr "drawing.svg") ≠ [] ∧
    Spec.lower (Spec.suffix (qstr "drawing.svg")) ≠ qstr "dxf" ∧
    ¬ qstr ".dxf" <:+: Spec.lower (qstr "SVG (*.svg)") ∧
    canExport (qstr "drawing.svg") (qstr "SVG (*.svg)") = false ∧
    ¬ qstr ".dxf" <:+: Spec.lower (qstr "") ∧
    canExport (qstr "drawing.svg") (qstr "") = false ∧
    qstr ".dxf" <:+: Spec.lower (qstr "DXF (*.DXF)") ∧
    canExport (qstr "drawing.svg") (qstr "DXF (*.DXF)") = true :=
  ⟨by decide, by decide, by decide,
   (C3_canExport_other_extension (qstr "drawing.svg") (qstr "SVG (*.svg)")
     (by decide) (by decide)).1 (by decide),
   by decide,
   (C3_canExport_other_extension (qstr "drawing.svg") (qstr "")
     (by decide) (by decide)).1 (by decide),
   by decide,
   (C3_canExport_other_extension (qstr "drawing.svg") (qstr "DXF (*.DXF)")
     (by decide) (by decide)).2 (by decide)⟩

/-- C5: `getFilterStrings` is the list of exactly two strings
"DXF R12 (dxflib) (*.dxf)" and "DXF 2000 (dxflib) (*.dxf)", in this order,
and the two are distinct. -/
theorem C5_getFilterStrings :
    getFilterStrings = [qstr "DXF R12 (dxflib) (*.dxf)", qstr "DXF 2000 (dxflib) (*.dxf)"] ∧
    getFilterStrings.length = 2 ∧
    qstr "DXF R12 (dxflib) (*.dxf)" ≠ qstr "DXF 2000 (dxflib) (*.dxf)" := by
  decide

/-- C6: every filter string of `getFilterStrings` is accepted by `canExport`
with every file name. -/
theorem C6_canExport_of_advertised (s : QString) (hs : s ∈ getFilterStrings)
    (fileName : QString) :
    canExport fileName s = true := by
  rw [canExport_eq_true_iff_spec]
  right
  have h : getFilterStrings =
      [qstr "DXF R12 (dxflib) (*.dxf)", qstr "DXF 2000 (dxflib) (*.dxf)"] := by decide
  rw [h] at hs
  simp only [List.mem_cons, List.mem_singleton, List.not_mem_nil, or_false] at hs
  rcases hs with rfl | rfl <;> decide

/-- C6, at both filter strings, with an empty file name, a name with no
extension and a name with another extension. -/
theorem C6_canExport_of_advertised_witness :
    qstr "DXF R12 (dxflib) (*.dxf)" ∈ getFilterStrings ∧
    qstr "DXF 2000 (dxflib) (*.dxf)" ∈ getFilterStrings ∧
    canExport (qstr "") (qstr "DXF R12 (dxflib) (*.dxf)") = true ∧
    canExport (qstr "drawing") (qstr "DXF 2000 (dxflib) (*.dxf)") = true ∧
    canExport (qstr "drawing.svg") (qstr "DXF 2000 (dxflib) (*.dxf)") = true :=
  ⟨by decide, by decide,
   C6_canExport_of_advertised _ (by decide) (qstr ""),
   C6_canExport_of_advertised _ (by decide) (qstr "drawing"),
   C6_canExport_of_advertised _ (by decide) (qstr "drawing.svg")⟩

/-- C7: `canExport` does not depend on the letter case of its arguments: its
result is the same on the arguments with their ASCII letters lower-cased and
on the arguments with their ASCII letters upper-cased; "A.DXF", "a.Dxf" and
"a.dxf" are accepted with an empty filter and "DXF (*.DXF)" is accepted as a
filter with every file name. -/
theorem C7_canExport_case_insensitive (fileName nameFilter : QString) :
    canExport fileName nameFilter = canExport (Spec.lower fileName) (Spec.lower nameFilter) ∧
    canExport (Spec.lower fileName) (Spec.lower nameFilter) =
      canExport (Spec.upper fileName) (Spec.upper nameFilter) ∧
    canExport (qstr "A.DXF") (qstr "") = true ∧
    canExport (qstr "a.Dxf") (qstr "") = true ∧
    canExport (qstr "a.dxf") (qstr "") = true ∧
    canExport fileName (qstr "DXF (*.DXF)") = true := by
  refine ⟨(canExport_lower fileName nameFilter).symm, ?_, by decide, by decide, by decide, ?_⟩
  · rw [canExport_lower, canExport_upper]
  · rw [canExport_eq_true_iff_spec]
    right
    decide

/-- C8: with a name filter that does not contain ".dxf" in any letter case,
`canExport` is false (a) for every file name whose final path component has no
`.`, (b) for every file name `x ++ ".dxf." ++ e` where `e` is non-empty, has
no `.` and no `/` and is not "dxf" in any letter case, and (c) for every file
name that ends in `.`. -/
theorem C8_canExport_last_extension (nameFilter : QString)
    (hn : ¬ qstr ".dxf" <:+: Spec.lower nameFilter) :
    (∀ fileName : QString, QChar.dot ∉ Spec.finalComponent fileName →
      canExport fileName nameFilter = false) ∧
    (∀ x e : QString, e ≠ [] → QChar.dot ∉ e → QChar.slash ∉ e →
      Spec.lower e ≠ qstr "dxf" →
      canExport (x ++ qstr ".dxf." ++ e) nameFilter = false) ∧
    (∀ x : QString, canExport (x ++ [QChar.dot]) nameFilter = false) := by
  refine ⟨?_, ?_, ?_⟩
  · intro fileName hd
    apply canExport_eq_false_of_suffix _ _ _ hn
    rw [suffix_eq_spec, Spec.suffix, if_neg hd]
    decide
  · intro x e _ hd hs he
    apply canExport_eq_false_of_suffix _ _ _ hn
    have hx : x ++ qstr ".dxf." ++ e = (x ++ qstr ".dxf") ++ QChar.dot :: e := by
      have h5 : qstr ".dxf." = qstr ".dxf" ++ [QChar.dot] := by decide
      rw [h5]
      simp
    rw [hx, suffix_append_dot _ e
      (fun c hc => ⟨fun h => hd (h ▸ hc), fun h => hs (h ▸ hc)⟩)]
    exact he
  · intro x
    apply canExport_eq_false_of_suffix _ _ _ hn
    rw [suffix_append_dot x [] (by simp)]
    decide

/-- C8, with the filter "SVG (*.svg)", at "/tmp/plans.dxf/readme",
"a.dxf.bak" and "a.dxf.". -/
theorem C8_canExport_last_extension_witness :
    ¬ qstr ".dxf" <:+: Spec.lower (qstr "SVG (*.svg)") ∧
    QChar.dot ∉ Spec.finalComponent (qstr "/tmp/plans.dxf/readme") ∧
    canExport (qstr "/tmp/plans.dxf/readme") (qstr "SVG (*.svg)") = false ∧
    canExport (qstr "a" ++ qstr ".dxf." ++ qstr "bak") (qstr "SVG (*.svg)") = false ∧
    qstr "a" ++ qstr ".dxf." ++ qstr "bak" = qstr "a.dxf.bak" ∧
    canExport (qstr "a.dxf" ++ [QChar.dot]) (qstr "SVG (*.svg)") = false ∧
    qstr "a.dxf" ++ [QChar.dot] = qstr "a.dxf." :=
  ⟨by decide, by decide,
   (C8_canExport_last_extension (qstr "SVG (*.svg)") (by decide)).1
     (qstr "/tmp/plans.dxf/readme") (by decide),
   (C8_canExport_last_extension (qstr "SVG (*.svg)") (by decide)).2.1
     (qstr "a") (qstr "bak") (by decide) (by decide) (by decide) (by decide),
   by decide,
   (C8_canExport_last_extension (qstr "SVG (*.svg)") (by decide)).2.2 (qstr "a.dxf"),
   by decide⟩
